import Mathlib

/-!
# NovaTune — shallow embedding of the pitch-correction core

This file embeds, over exact arithmetic (`ℤ`, `ℚ`, `ℝ`), the parts of the
NovaTune DSP core that the specification claims talk about:

* `Source/Utilities.h` (`NovaTuneUtils`): scale quantization helpers,
  `diatonicToSemitones`, `smoothValue`;
* `Source/ParameterIDs.h` (`NovaTuneEnums`): scales, interval tables,
  `diatonicIndexToScaleDegree`;
* `Source/dsp/PitchMapper.cpp`: `quantizeToScale`, `diatonicToSemitones`;
* `Source/dsp/PitchDetector.cpp`: the YIN difference function, the
  cumulative-mean normalization, the absolute-threshold search and the
  per-frame detection outcome;
* `Source/dsp/LeadCorrection.cpp` / `HarmonyVoice.cpp`: the target pitch
  ratio computations;
* `Source/dsp/LeadCorrection.h` (`PitchShifter::findBestGrainPosition`):
  the correlation normalization;
* `Source/dsp/TunerEngine.cpp`: the final soft-clip stage.

C++ machine integers are modelled as `ℤ` (all quantities involved stay far
from 32-bit overflow), `float` samples and MIDI notes as `ℚ` where the code
is pure arithmetic, and as `ℝ` where the code calls transcendental functions
(`std::pow`, `std::tanh`).
-/

/-- C++ `/` on `int` truncates toward zero (both operands in this codebase
are used with nonnegative values whenever it matters). -/
def cppDiv (a b : ℤ) : ℤ := Int.tdiv a b

/-- C++ `%` on `int`: remainder of truncating division. -/
def cppMod (a b : ℤ) : ℤ := Int.tmod a b

/-- C++ `std::round`: nearest integer, halfway cases away from zero. -/
def cppRound (q : ℚ) : ℤ := if q < 0 then -⌊-q + 1/2⌋ else ⌊q + 1/2⌋

/-- C++ `std::clamp(v, lo, hi)`: `lo` if `v < lo`, `hi` if `hi < v`, else `v`. -/
def cppClamp {α : Type} [LinearOrder α] (v lo hi : α) : α :=
  if v < lo then lo else if hi < v then hi else v

/-- `NovaTuneEnums::Scale` (ParameterIDs.h). The `numScales` sentinel is not
a real scale and is mapped to the chromatic table by `getScaleIntervals`,
exactly as the `switch` in the source does; we omit the sentinel
constructor and keep the five real scales. -/
inductive Scale where
  | Major
  | NaturalMinor
  | HarmonicMinor
  | MelodicMinor
  | Chromatic
deriving DecidableEq

/-- `NovaTuneEnums::getScaleIntervals` (ParameterIDs.h): semitone offsets
from the root for each scale. -/
def getScaleIntervals : Scale → List ℤ
  | .Major => [0, 2, 4, 5, 7, 9, 11]
  | .NaturalMinor => [0, 2, 3, 5, 7, 8, 10]
  | .HarmonicMinor => [0, 2, 3, 5, 7, 8, 11]
  | .MelodicMinor => [0, 2, 3, 5, 7, 9, 11]
  | .Chromatic => [0, 1, 2, 3, 4, 5, 6, 7, 8, 9, 10, 11]

/-- `NovaTuneEnums::diatonicIndexToScaleDegree` (ParameterIDs.h):
interval index 0-14 to scale-degree offset -7..+7. -/
def diatonicIndexToScaleDegree (index : ℤ) : ℤ := index - 7

/-- The pitch-class computation appearing in `PitchMapper::quantizeToScale`
and `PitchMapper::diatonicToSemitones`: `n % 12`, then `+ 12` if negative. -/
def pitchClassOf (n : ℤ) : ℤ :=
  let p := cppMod n 12
  if p < 0 then p + 12 else p

/-- Root-relative pitch class: `(pitchClass - keyRootNote + 12) % 12`
(PitchMapper.cpp). -/
def relativePC (n keyRoot : ℤ) : ℤ :=
  cppMod (pitchClassOf n - keyRoot + 12) 12

/-- The circular pitch-class distance used by the nearest-interval search in
`PitchMapper::quantizeToScale`: `min(|a-b|, 12-|a-b|)`. -/
def circularDist (a b : ℤ) : ℤ := min |a - b| (12 - |a - b|)

/-- The nearest-interval linear search of `PitchMapper::quantizeToScale`:
starting from `nearestInterval = 0`, `minDistance = 12`, take an interval
only when its distance is strictly smaller than the minimum so far (so the
first interval attaining the minimum wins). Returns
`(nearestInterval, minDistance)`. -/
def nearestIntervalSearch (relPC : ℤ) (intervals : List ℤ) : ℤ × ℤ :=
  intervals.foldl
    (fun acc interval =>
      let dist := circularDist relPC interval
      if dist < acc.2 then (interval, dist) else acc)
    (0, 12)

/-- The adjustment wrap of `PitchMapper::quantizeToScale`: bring
`target - current` into `[-6, 6]` by the two successive `if`s. -/
def wrapAdjustment (a : ℤ) : ℤ :=
  let a1 := if a > 6 then a - 12 else a
  if a1 < -6 then a1 + 12 else a1

/-- The pitch-class adjustment `PitchMapper::quantizeToScale` applies to the
rounded note: `0` when the relative pitch class is already an interval
member (the early `return roundedNote`), else the wrapped difference to the
nearest interval found by the linear search. -/
def quantizeAdjust (intervals : List ℤ) (relPC : ℤ) : ℤ :=
  if relPC ∈ intervals then 0
  else wrapAdjustment ((nearestIntervalSearch relPC intervals).1 - relPC)

/-- `PitchMapper::quantizeToScale` (PitchMapper.cpp): chromatic scale
short-circuits to plain rounding; otherwise the rounded note is returned
unchanged when its root-relative pitch class is an interval member, else it
is moved by the wrapped adjustment toward the first interval member at
minimum circular distance. -/
def quantizeToScale (s : Scale) (keyRoot : ℤ) (midiNote : ℚ) : ℚ :=
  if s = Scale.Chromatic then (cppRound midiNote : ℚ)
  else
    let roundedNote := cppRound midiNote
    let rel := relativePC roundedNote keyRoot
    ((roundedNote + quantizeAdjust (getScaleIntervals s) rel : ℤ) : ℚ)

/-- `NovaTuneUtils::smoothValue` (Utilities.h): the generic one-pole
smoothing helper, exactly as written in the source —
`current + coeff * (target - coeff)`. -/
def smoothValue (current target coeff : ℚ) : ℚ :=
  current + coeff * (target - coeff)

/-- The `startScaleDegree` scan of `PitchMapper::diatonicToSemitones`:
iterate over the interval table; on exact match return the index
(the `break`); otherwise remember the index whenever the interval is below
the relative pitch class. `i` is the index of the head of the remaining
list, `acc` the `startScaleDegree` accumulator (initially 0). -/
def findStartDegreeAux (rel : ℤ) : List ℤ → ℤ → ℤ → ℤ
  | [], _, acc => acc
  | x :: rest, i, acc =>
    if x = rel then i
    else findStartDegreeAux rel rest (i + 1) (if x < rel then i else acc)

/-- Entry point of the `startScaleDegree` scan, from index 0 and
accumulator 0. -/
def findStartDegree (intervals : List ℤ) (rel : ℤ) : ℤ :=
  findStartDegreeAux rel intervals 0 0

/-- The first wrap loop of `PitchMapper::diatonicToSemitones`:
`while (targetScaleDegree >= numScaleNotes) { -= n; octaveShift += 12 }`.
The extra `1 ≤ n` guard only rules out the nonterminating `n ≤ 0` case,
which cannot occur (every interval table is nonempty). -/
def wrapDownDegree (n t shift : ℤ) : ℤ × ℤ :=
  if h : 1 ≤ n ∧ n ≤ t then wrapDownDegree n (t - n) (shift + 12) else (t, shift)
termination_by t.toNat
decreasing_by
  all_goals omega

/-- The second wrap loop of `PitchMapper::diatonicToSemitones`:
`while (targetScaleDegree < 0) { += n; octaveShift -= 12 }`, with the same
`1 ≤ n` termination guard. -/
def wrapUpDegree (n t shift : ℤ) : ℤ × ℤ :=
  if h : 1 ≤ n ∧ t < 0 then wrapUpDegree n (t + n) (shift - 12) else (t, shift)
termination_by (-t).toNat
decreasing_by
  all_goals omega

/-- `PitchMapper::diatonicToSemitones` (PitchMapper.cpp): find the scale
degree at or below the base note's relative pitch class, add the requested
degrees, wrap into the table while accumulating ±12 per wrap, and return
the interval difference plus the octave shift. -/
def mapperDiatonicToSemitones (s : Scale) (keyRoot : ℤ) (scaleDegrees : ℤ)
    (fromMidiNote : ℚ) : ℤ :=
  if scaleDegrees = 0 then 0
  else
    let intervals := getScaleIntervals s
    let n : ℤ := intervals.length
    let startRelative := relativePC (cppRound fromMidiNote) keyRoot
    let startScaleDegree := findStartDegree intervals startRelative
    let wrapped := wrapUpDegree n
      (wrapDownDegree n (startScaleDegree + scaleDegrees) 0).1
      (wrapDownDegree n (startScaleDegree + scaleDegrees) 0).2
    let targetInterval := intervals.getD wrapped.1.toNat 0
    let startInterval := intervals.getD startScaleDegree.toNat 0
    (targetInterval - startInterval) + wrapped.2

/-- `NovaTuneUtils::diatonicToSemitones` (Utilities.h): the table-only
conversion used by `HarmonyVoice::calculateHarmonyPitchRatio`. It sees only
the scale-degree offset and the interval table, never the base note. -/
def utilsDiatonicToSemitones (scaleDegree : ℤ) (intervals : List ℤ) : ℤ :=
  let n : ℤ := intervals.length
  if scaleDegree = 0 then 0
  else if scaleDegree < 0 then
    let octavesDown := cppDiv (-scaleDegree) n
    let remainingDegrees := cppMod (-scaleDegree) n
    if remainingDegrees = 0 then -12 * octavesDown
    else
      let indexFromTop := n - remainingDegrees
      (-(12 * (octavesDown + 1))) + intervals.getD indexFromTop.toNat 0
  else
    let octavesUp := cppDiv scaleDegree n
    let remainingDegrees := cppMod scaleDegree n
    12 * octavesUp + intervals.getD remainingDegrees.toNat 0

/-- `DSPConfig::yinThreshold` = 0.15f. -/
def yinThreshold : ℚ := 3/20

/-- `DSPConfig::minPitchShiftRatio` = 0.5f. -/
def minPitchShiftRatio : ℚ := 1/2

/-- `DSPConfig::maxPitchShiftRatio` = 2.0f. -/
def maxPitchShiftRatio : ℚ := 2

/-- The inner loop of `PitchDetector::computeDifferenceFunction`: the sum of
`(x[j] - x[j+tau])²` over `j < count`, accumulated in loop order. -/
def yinDiffSum (x : ℕ → ℚ) (tau : ℕ) : ℕ → ℚ
  | 0 => 0
  | count + 1 => yinDiffSum x tau count + (x count - x (count + tau)) ^ 2

/-- `PitchDetector::computeDifferenceFunction` (PitchDetector.cpp):
`yinBuffer[0] = 0`; for each lag `tau ≥ 1` the inner sum runs over
`j < yinSize` where `yinSize = numSamples / 2` is fixed (the loop bound does
not depend on `tau`). The function below gives the value written at index
`tau`; the claims only read lags `1 ≤ tau < numSamples / 2`, the range the
loop writes. -/
def computeDifferenceFunction (x : ℕ → ℚ) (numSamples : ℕ) (tau : ℕ) : ℚ :=
  if tau = 0 then 0 else yinDiffSum x tau (numSamples / 2)

/-- The `cumulativeSum` accumulator of
`PitchDetector::computeCumulativeMeanNormalizedDifference` after the loop
iteration for lag `tau`: the sum of `d(1) + ... + d(tau)`. -/
def yinCumulativeSum (d : ℕ → ℚ) : ℕ → ℚ
  | 0 => 0
  | tau + 1 => yinCumulativeSum d tau + d (tau + 1)

/-- `PitchDetector::computeCumulativeMeanNormalizedDifference`
(PitchDetector.cpp), final value of entry `tau`. In the source the
multiplication `yinBuffer[tau] *= tau / cumulativeSum` executes before the
zero test, but whenever `cumulativeSum ≤ 0` the `else` branch then
overwrites the entry with `1.0f`, so the value the entry holds after the
function returns is the one below. -/
def yinCMND (d : ℕ → ℚ) (tau : ℕ) : ℚ :=
  if tau = 0 then 1
  else if 0 < yinCumulativeSum d tau then d tau * (tau : ℚ) / yinCumulativeSum d tau
  else 1

/-- The inner local-minimum descent of `PitchDetector::absoluteThreshold`:
`while (tau + 1 < maxTau && buf[tau+1] < buf[tau]) ++tau`. -/
def localMinDescent (buf : ℕ → ℚ) (maxTau tau : ℕ) : ℕ :=
  if h : tau + 1 < maxTau ∧ buf (tau + 1) < buf tau then
    localMinDescent buf maxTau (tau + 1)
  else tau
termination_by maxTau - tau
decreasing_by
  all_goals omega

/-- The dip-search loop of `PitchDetector::absoluteThreshold`: scan `tau`
upward from `minTau`; on the first value below the threshold, descend to
the local minimum and return it (`some`); `none` when the loop exhausts. -/
def searchDip (buf : ℕ → ℚ) (maxTau tau : ℕ) : Option ℕ :=
  if h : tau < maxTau then
    if buf tau < yinThreshold then some (localMinDescent buf maxTau tau)
    else searchDip buf maxTau (tau + 1)
  else none
termination_by maxTau - tau
decreasing_by
  all_goals omega

/-- The fallback global-minimum scan of `PitchDetector::absoluteThreshold`:
for `t` from `lo` to `hi - 1`, keep the smallest value (strictly smaller
wins, so the first attaining index is kept). -/
def minScan (buf : ℕ → ℚ) (hi t : ℕ) (bestVal : ℚ) (bestIdx : ℕ) : ℚ × ℕ :=
  if h : t < hi then
    if buf t < bestVal then minScan buf hi (t + 1) (buf t) t
    else minScan buf hi (t + 1) bestVal bestIdx
  else (bestVal, bestIdx)
termination_by hi - t
decreasing_by
  all_goals omega

/-- `PitchDetector::absoluteThreshold` (PitchDetector.cpp). `minTau0` and
`maxTau0` are the integer-truncated `sampleRate / maxFreqHz` and
`sampleRate / minFreqHz`; the function clamps them, searches for the first
dip below the threshold, and otherwise falls back to the global minimum if
it is below 0.5, returning 0 (unvoiced) when even that fails. `yinSize` is
`yinBuffer.size() = frameSize / 2` (positive in every prepared state). -/
def absoluteThreshold (buf : ℕ → ℚ) (yinSize minTau0 maxTau0 : ℕ) : ℕ :=
  let minTau := max 2 minTau0
  let maxTau := min maxTau0 (yinSize - 1)
  match searchDip buf maxTau minTau with
  | some tau => tau
  | none =>
    let fallback := minScan buf maxTau (minTau + 1) (buf minTau) minTau
    if fallback.1 < 1/2 then fallback.2 else 0

/-- `PitchDetector::parabolicInterpolation` (PitchDetector.cpp). -/
def parabolicInterpolation (buf : ℕ → ℚ) (yinSize tauEstimate : ℕ) : ℚ :=
  if tauEstimate < 1 ∨ (yinSize : ℤ) - 1 ≤ (tauEstimate : ℤ) then (tauEstimate : ℚ)
  else
    let y0 := buf (tauEstimate - 1)
    let y1 := buf tauEstimate
    let y2 := buf (tauEstimate + 1)
    let denominator := 2 * (y0 - 2 * y1 + y2)
    if |denominator| < 1/10^10 then (tauEstimate : ℚ)
    else (tauEstimate : ℚ) + (y0 - y2) / denominator

/-- `PitchDetector::periodToFrequency` (PitchDetector.cpp). -/
def periodToFrequency (sampleRate periodSamples : ℚ) : ℚ :=
  if periodSamples ≤ 0 then 0 else sampleRate / periodSamples

/-- The detector state fields one YIN analysis pass updates (the MIDI-note
conversion, a `log2` used only for display of voiced frames, is outside the
claims and not modelled). -/
structure DetectionOutcome where
  voiced : Bool
  confidence : ℚ
  frequencyHz : ℚ
  periodSamples : ℚ
deriving DecidableEq

/-- Steps 4a-4d of `PitchDetector::process` (PitchDetector.cpp), run once on
a full analysis frame `x` of `frameSize` samples: difference function,
cumulative-mean normalization, absolute threshold, then — when a period was
found — parabolic refinement, frequency conversion and the voice-range
gate. `prevConfidence` is the member value left in place when the
confidence-update guard `tauInt < yinBuffer.size()` fails. -/
def runYinAnalysis (x : ℕ → ℚ) (frameSize : ℕ) (sampleRate minFreqHz maxFreqHz : ℚ)
    (minTau0 maxTau0 : ℕ) (prevConfidence : ℚ) : DetectionOutcome :=
  let d := computeDifferenceFunction x frameSize
  let buf := yinCMND d
  let yinSize := frameSize / 2
  let rawPeriod := absoluteThreshold buf yinSize minTau0 maxTau0
  if 0 < rawPeriod then
    let period := parabolicInterpolation buf yinSize rawPeriod
    let freq := periodToFrequency sampleRate period
    if minFreqHz ≤ freq ∧ freq ≤ maxFreqHz then
      { voiced := true
        confidence :=
          if rawPeriod < yinSize then cppClamp (1 - buf rawPeriod) 0 1
          else prevConfidence
        frequencyHz := freq
        periodSamples := period }
    else
      { voiced := false, confidence := 0, frequencyHz := freq, periodSamples := period }
  else
    { voiced := false, confidence := 0, frequencyHz := 0, periodSamples := 0 }

/-- The correlation-normalization step of
`PitchShifter::findBestGrainPosition` (LeadCorrection.h): `norm` is the
already-computed `sqrt(normGrain * normOutput)`; when it exceeds `1e-10`
the raw correlation is divided by it, otherwise the correlation is zeroed. -/
def normalizeCorrelation (correlation norm : ℚ) : ℚ :=
  if norm > 1/10^10 then correlation / norm else 0

/-- `LeadCorrection::calculateTargetPitchRatio` (LeadCorrection.cpp):
unvoiced or degenerate frequencies force ratio 1; otherwise the ratio
target/detected clamped to the shift engine's valid range. -/
def calculateTargetPitchRatio (voiced : Bool)
    (leadTargetFrequencyHz detectedFrequencyHz : ℚ) : ℚ :=
  if ¬ voiced then 1
  else if leadTargetFrequencyHz ≤ 0 ∨ detectedFrequencyHz ≤ 0 then 1
  else cppClamp (leadTargetFrequencyHz / detectedFrequencyHz)
    minPitchShiftRatio maxPitchShiftRatio

/-- `NovaTuneEnums::HarmonyMode` (ParameterIDs.h). -/
inductive HarmonyMode where
  | Diatonic
  | Semitone
deriving DecidableEq

/-- `NovaTuneUtils::getPitchRatio` (Utilities.h):
`2^((targetMidi - sourceMidi) / 12)`. -/
noncomputable def getPitchRatio (targetMidi sourceMidi : ℝ) : ℝ :=
  (2 : ℝ) ^ ((targetMidi - sourceMidi) / 12)

/-- `HarmonyVoice::calculateHarmonyPitchRatio` (HarmonyVoice.cpp): unvoiced
detector, nonpositive lead target, or nonpositive detected MIDI force
ratio 1; otherwise the harmony MIDI target is built from the mode
(diatonic via `NovaTuneUtils::diatonicToSemitones`, or a fixed semitone
offset), the pitch-humanize offset in cents is added, and the ratio from
the detected MIDI note is clamped to the shift engine's range. -/
noncomputable def calculateHarmonyPitchRatio (voiced : Bool)
    (leadTargetMidiNote : ℝ) (mode : HarmonyMode)
    (diatonicIntervalIndex semitoneOffset : ℤ) (s : Scale)
    (pitchHumanizeOffset detectedMidi : ℝ) : ℝ :=
  if ¬ voiced then 1
  else if leadTargetMidiNote ≤ 0 then 1
  else
    let harmonyMidi :=
      match mode with
      | .Diatonic =>
        let scaleDegrees := diatonicIndexToScaleDegree diatonicIntervalIndex
        let semitones := utilsDiatonicToSemitones scaleDegrees (getScaleIntervals s)
        leadTargetMidiNote + (semitones : ℝ)
      | .Semitone => leadTargetMidiNote + (semitoneOffset : ℝ)
    let harmonyMidiHumanized := harmonyMidi + pitchHumanizeOffset / 100
    if detectedMidi ≤ 0 then 1
    else cppClamp (getPitchRatio harmonyMidiHumanized detectedMidi)
      ((1 : ℝ)/2) 2

/-- The soft-clip stage of `TunerEngine::process` (TunerEngine.cpp, step 6):
each mixed sample becomes `tanh(sample * 0.9) / 0.9`. -/
noncomputable def softClipSample (s : ℝ) : ℝ := Real.tanh (s * (9/10)) / (9/10)

/-- The soft-clip stage applied to one output channel: the final contents of
the block `TunerEngine::process` hands back to the host. -/
noncomputable def softClipChannel (data : List ℝ) : List ℝ := data.map softClipSample

/-- Modelled from the spec (§4.1 step 1), for the refinement comparison of
claim C4 only: the difference function exactly as the specification words
it, `d(τ) = Σ_{j<W−τ} (x[j] − x[j+τ])²`, an inner sum whose length depends
on `τ`. -/
def specDifferenceFunction (x : ℕ → ℚ) (numSamples tau : ℕ) : ℚ :=
  ∑ j ∈ Finset.range (numSamples - tau), (x j - x (j + tau)) ^ 2

/-! ## Arithmetic bridge lemmas

C++ truncating `%` composed with the `+12`-fixup equals Euclidean `emod`;
these lemmas let the modular reasoning below use `emod` facts. -/

theorem tmod_neg_left (n m : ℤ) : Int.tmod (-n) m = -Int.tmod n m := by
  rw [Int.tmod_def, Int.tmod_def, Int.neg_tdiv]
  ring

theorem pitchClassOf_eq_emod (n : ℤ) : pitchClassOf n = n % 12 := by
  unfold pitchClassOf cppMod
  rcases le_or_lt 0 n with h | h
  · rw [Int.tmod_eq_emod h (by norm_num)]
    have h1 : 0 ≤ n % 12 := Int.emod_nonneg n (by norm_num)
    simp [not_lt.mpr h1]
  · have h2 : Int.tmod n 12 = -Int.tmod (-n) 12 := by
      rw [← tmod_neg_left, neg_neg]
    rw [h2, Int.tmod_eq_emod (by omega) (by norm_num)]
    have h3 : 0 ≤ (-n) % 12 := Int.emod_nonneg (-n) (by norm_num)
    have h4 : (-n) % 12 < 12 := Int.emod_lt_of_pos (-n) (by norm_num)
    dsimp only
    split <;> omega

theorem relativePC_eq_emod (n r : ℤ) (h0 : 0 ≤ r) (h1 : r < 12) :
    relativePC n r = (n - r) % 12 := by
  unfold relativePC cppMod
  rw [pitchClassOf_eq_emod]
  have h2 : 0 ≤ n % 12 := Int.emod_nonneg n (by norm_num)
  have h3 : n % 12 < 12 := Int.emod_lt_of_pos n (by norm_num)
  rw [Int.tmod_eq_emod (by omega) (by norm_num)]
  omega

theorem relativePC_nonneg (n r : ℤ) (h0 : 0 ≤ r) (h1 : r < 12) :
    0 ≤ relativePC n r := by
  rw [relativePC_eq_emod n r h0 h1]
  exact Int.emod_nonneg _ (by norm_num)

theorem relativePC_lt_twelve (n r : ℤ) (h0 : 0 ≤ r) (h1 : r < 12) :
    relativePC n r < 12 := by
  rw [relativePC_eq_emod n r h0 h1]
  exact Int.emod_lt_of_pos _ (by norm_num)

theorem cppRound_intCast (k : ℤ) : cppRound (k : ℚ) = k := by
  unfold cppRound
  have hf : ∀ j : ℤ, ⌊(j : ℚ) + 1/2⌋ = j := by
    intro j
    rw [Int.floor_eq_iff]
    constructor
    · linarith
    · have : ((j + 1 : ℤ) : ℚ) = (j : ℚ) + 1 := by push_cast; ring
      linarith [this]
  split
  · rw [show -(k : ℚ) = ((-k : ℤ) : ℚ) by push_cast; ring, hf, neg_neg]
  · exact hf k

/-! ## C9 — the smoothing helper's delta term -/

/-- C9: for every current, target and coefficient, `NovaTuneUtils::smoothValue`
returns `current + coeff * (target - coeff)` — the delta term subtracts the
coefficient, not the current value — and consequently the conventional
fixed-point property of one-pole smoothing fails: smoothing a value toward
itself can move it. -/
theorem smoothValue_delta_uses_coeff :
    (∀ current target coeff : ℚ,
      smoothValue current target coeff = current + coeff * (target - coeff)) ∧
    smoothValue 1 1 (1/2) ≠ 1 := by
  constructor
  · intro current target coeff
    rfl
  · unfold smoothValue
    norm_num

/-! ## C2 — zero energy denominators give neutral values -/

/-- C2: a zero cumulative sum in YIN's cumulative-mean normalization leaves
the normalized entry at the neutral value 1 for every lag (so no NaN/Inf
ever remains in `yinBuffer`), and a correlation norm at or below `1e-10` in
the WSOLA grain search yields correlation 0. -/
theorem zero_energy_denominators_neutral :
    (∀ (d : ℕ → ℚ) (tau : ℕ), yinCumulativeSum d tau = 0 → yinCMND d tau = 1) ∧
    (∀ correlation norm : ℚ, norm ≤ 1/10^10 →
      normalizeCorrelation correlation norm = 0) := by
  constructor
  · intro d tau hsum
    unfold yinCMND
    rcases Nat.eq_zero_or_pos tau with h | h
    · simp [h]
    · rw [hsum]
      simp [Nat.pos_iff_ne_zero.mp h]
  · intro correlation norm hnorm
    unfold normalizeCorrelation
    rw [if_neg]
    exact not_lt.mpr hnorm

/-! ## The wrap loops of `PitchMapper::diatonicToSemitones` in closed form -/

theorem wrapDownDegree_spec (n : ℤ) (hn : 1 ≤ n) :
    ∀ t s : ℤ, wrapDownDegree n t s =
      if n ≤ t then (t % n, s + 12 * (t / n)) else (t, s) := by
  have main : ∀ (k : ℕ) (t s : ℤ), t.toNat ≤ k →
      wrapDownDegree n t s =
        if n ≤ t then (t % n, s + 12 * (t / n)) else (t, s) := by
    intro k
    induction k with
    | zero =>
      intro t s ht
      rw [wrapDownDegree, dif_neg (by omega), if_neg (by omega)]
    | succ k ih =>
      intro t s ht
      rw [wrapDownDegree]
      by_cases h : n ≤ t
      · have hmod : (t - n) % n = t % n := by
          rw [show t - n = t + (-1) * n by ring, Int.add_mul_emod_self]
        have hdiv : (t - n) / n = t / n + (-1) := by
          rw [show t - n = t + (-1) * n by ring]
          exact Int.add_mul_ediv_right t (-1) (by omega)
        rw [dif_pos ⟨hn, h⟩, ih (t - n) (s + 12) (by omega), if_pos h]
        by_cases h2 : n ≤ t - n
        · rw [if_pos h2, hmod, hdiv]
          simp only [Prod.mk.injEq, true_and]
          ring
        · have h3 : t % n = t - n := by
            rw [← hmod]
            exact Int.emod_eq_of_lt (by omega) (by omega)
          have h4 : t / n = 1 := by
            have h5 : (t - n) / n = 0 := Int.ediv_eq_zero_of_lt (by omega) (by omega)
            omega
          rw [if_neg h2, h3, h4]
          simp only [Prod.mk.injEq, true_and]
          ring
      · rw [dif_neg (by tauto), if_neg h]
  intro t s
  exact main t.toNat t s le_rfl

theorem wrapUpDegree_spec (n : ℤ) (hn : 1 ≤ n) :
    ∀ t s : ℤ, wrapUpDegree n t s =
      if t < 0 then (t % n, s + 12 * (t / n)) else (t, s) := by
  have main : ∀ (k : ℕ) (t s : ℤ), (-t).toNat ≤ k →
      wrapUpDegree n t s =
        if t < 0 then (t % n, s + 12 * (t / n)) else (t, s) := by
    intro k
    induction k with
    | zero =>
      intro t s ht
      rw [wrapUpDegree, dif_neg (by omega), if_neg (by omega)]
    | succ k ih =>
      intro t s ht
      rw [wrapUpDegree]
      by_cases h : t < 0
      · have hmod : (t + n) % n = t % n := by
          rw [show t + n = t + 1 * n by ring, Int.add_mul_emod_self]
        have hdiv : (t + n) / n = t / n + 1 := by
          rw [show t + n = t + 1 * n by ring]
          exact Int.add_mul_ediv_right t 1 (by omega)
        rw [dif_pos ⟨hn, h⟩, ih (t + n) (s - 12) (by omega), if_pos h]
        by_cases h2 : t + n < 0
        · rw [if_pos h2, hmod, hdiv]
          simp only [Prod.mk.injEq, true_and]
          ring
        · have h3 : t % n = t + n := by
            rw [← hmod]
            exact Int.emod_eq_of_lt (by omega) (by omega)
          have h4 : t / n = -1 := by
            have h5 : (t + n) / n = 0 := Int.ediv_eq_zero_of_lt (by omega) (by omega)
            omega
          rw [if_neg h2, h3, h4]
          simp only [Prod.mk.injEq, true_and]
          ring
      · rw [dif_neg (by tauto), if_neg h]
  intro t s
  exact main (-t).toNat t s le_rfl

/-- The first wrap loop followed by the second brings the target degree to
its Euclidean remainder by the table size and accumulates exactly 12 per
octave of quotient. -/
theorem wrapDegrees_eval (n t : ℤ) (hn : 1 ≤ n) :
    wrapUpDegree n (wrapDownDegree n t 0).1 (wrapDownDegree n t 0).2 =
      (t % n, 12 * (t / n)) := by
  rw [wrapDownDegree_spec n hn t 0]
  by_cases h : n ≤ t
  · rw [if_pos h]
    dsimp only
    rw [wrapUpDegree_spec n hn,
      if_neg (not_lt.mpr (Int.emod_nonneg t (by omega)))]
    simp only [Prod.mk.injEq, true_and]
    ring
  · rw [if_neg h]
    dsimp only
    rw [wrapUpDegree_spec n hn]
    by_cases h2 : t < 0
    · rw [if_pos h2]
      simp only [Prod.mk.injEq, true_and]
      ring
    · rw [if_neg h2, Int.emod_eq_of_lt (by omega) (by omega),
        Int.ediv_eq_zero_of_lt (by omega) (by omega)]
      simp only [Prod.mk.injEq, true_and]
      ring

theorem scaleIntervals_length_pos (s : Scale) :
    1 ≤ ((getScaleIntervals s).length : ℤ) := by
  cases s <;> simp [getScaleIntervals]

/-- `PitchMapper::diatonicToSemitones` in closed form: for a nonzero degree
offset, the result is the interval-table entry at the wrapped target degree
minus the entry at the start degree, plus 12 per octave of wrap. -/
theorem mapperDiatonicToSemitones_eval (s : Scale) (r d : ℤ) (m : ℚ)
    (hd : d ≠ 0) :
    mapperDiatonicToSemitones s r d m =
      (getScaleIntervals s).getD
          (((findStartDegree (getScaleIntervals s) (relativePC (cppRound m) r) + d) %
            ((getScaleIntervals s).length : ℤ)).toNat) 0 -
        (getScaleIntervals s).getD
          (findStartDegree (getScaleIntervals s) (relativePC (cppRound m) r)).toNat 0 +
        12 * ((findStartDegree (getScaleIntervals s) (relativePC (cppRound m) r) + d) /
          ((getScaleIntervals s).length : ℤ)) := by
  unfold mapperDiatonicToSemitones
  rw [if_neg hd]
  dsimp only
  rw [wrapDegrees_eval _ _ (scaleIntervals_length_pos s)]

/-! ## `NovaTuneUtils::diatonicToSemitones` in closed form -/

theorem utilsDiatonicToSemitones_eval (d : ℤ) (l : List ℤ)
    (hn : 1 ≤ (l.length : ℤ)) (h0 : l.getD 0 0 = 0) :
    utilsDiatonicToSemitones d l =
      l.getD ((d % (l.length : ℤ)).toNat) 0 + 12 * (d / (l.length : ℤ)) := by
  unfold utilsDiatonicToSemitones
  set n : ℤ := (l.length : ℤ) with hnd
  dsimp only
  by_cases hz : d = 0
  · subst hz
    rw [if_pos rfl, Int.zero_emod, Int.zero_ediv, Int.toNat_zero, h0]
    ring
  · rw [if_neg hz]
    by_cases hneg : d < 0
    · rw [if_pos hneg]
      have ha : 0 ≤ -d := by omega
      have htd : cppDiv (-d) n = (-d) / n := Int.tdiv_eq_ediv ha (by omega)
      have htm : cppMod (-d) n = (-d) % n := Int.tmod_eq_emod ha (by omega)
      rw [htd, htm]
      by_cases hrem : (-d) % n = 0
      · rw [if_pos hrem]
        obtain ⟨q, hq⟩ : n ∣ -d := Int.dvd_of_emod_eq_zero hrem
        have hq1 : (-d) / n = q := by
          rw [hq]
          exact Int.mul_ediv_cancel_left q (by omega)
        have hd2 : d = n * (-q) := by
          rw [mul_neg]
          linarith [hq]
        have hq2 : d % n = 0 := Int.emod_eq_zero_of_dvd ⟨-q, hd2⟩
        have hq3 : d / n = -q := by
          rw [hd2]
          exact Int.mul_ediv_cancel_left _ (by omega)
        rw [hq1, hq2, hq3, Int.toNat_zero, h0]
        ring
      · rw [if_neg hrem]
        have hrpos : 0 < (-d) % n :=
          lt_of_le_of_ne (Int.emod_nonneg _ (by omega)) (Ne.symm hrem)
        have hrlt : (-d) % n < n := Int.emod_lt_of_pos _ (by omega)
        have hsum : -d = n * ((-d) / n) + (-d) % n := (Int.ediv_add_emod (-d) n).symm
        have key : d / n = -((-d) / n + 1) ∧ d % n = n - (-d) % n :=
          (Int.ediv_emod_unique (by omega)).mpr
            ⟨by linear_combination hsum, by omega, by omega⟩
        rw [key.1, key.2]
        ring
    · rw [if_neg hneg]
      have ha : 0 ≤ d := by omega
      have htd : cppDiv d n = d / n := Int.tdiv_eq_ediv ha (by omega)
      have htm : cppMod d n = d % n := Int.tmod_eq_emod ha (by omega)
      rw [htd, htm]
      ring

theorem findStartDegree_zero (s : Scale) :
    findStartDegree (getScaleIntervals s) 0 = 0 := by
  cases s <;> decide

theorem scaleIntervals_getD_zero (s : Scale) :
    (getScaleIntervals s).getD 0 0 = 0 := by
  cases s <;> decide

/-! ## C1 — HarmonyVoice's diatonic conversion vs PitchMapper's -/

/-- C1 (counterexample): in C Major, a diatonic offset of +2 scale degrees
from base note D4 (MIDI 62) gives +4 semitones through
`NovaTuneUtils::diatonicToSemitones` (which sees only the interval table)
but +3 semitones through `PitchMapper::diatonicToSemitones` (which locates
the base note's scale degree first) — the two conversions disagree away
from the scale root, so the claimed agreement for every base note fails. -/
theorem harmony_vs_mapper_diatonic_counterexample :
    utilsDiatonicToSemitones 2 (getScaleIntervals Scale.Major) = 4 ∧
    mapperDiatonicToSemitones Scale.Major 0 2 ((62 : ℤ) : ℚ) = 3 ∧
    utilsDiatonicToSemitones 2 (getScaleIntervals Scale.Major) ≠
      mapperDiatonicToSemitones Scale.Major 0 2 ((62 : ℤ) : ℚ) := by
  have hm : mapperDiatonicToSemitones Scale.Major 0 2 ((62 : ℤ) : ℚ) = 3 := by
    rw [mapperDiatonicToSemitones_eval _ _ _ _ (by norm_num), cppRound_intCast]
    decide
  have hu : utilsDiatonicToSemitones 2 (getScaleIntervals Scale.Major) = 4 := by
    decide
  refine ⟨hu, hm, ?_⟩
  rw [hu, hm]
  norm_num

/-- C1 (amended): the two diatonic conversions agree exactly when the base
note sits on the scale root — for every scale, every degree offset, and
every base note whose root-relative pitch class is 0, the semitone offset
`HarmonyVoice` derives via `NovaTuneUtils::diatonicToSemitones` equals the
one `PitchMapper::diatonicToSemitones` computes; for other base notes they
can differ (see the counterexample). -/
theorem harmony_vs_mapper_diatonic_agree_on_root (s : Scale) (r d : ℤ) (m : ℚ)
    (hroot : relativePC (cppRound m) r = 0) :
    utilsDiatonicToSemitones d (getScaleIntervals s) =
      mapperDiatonicToSemitones s r d m := by
  by_cases hz : d = 0
  · subst hz
    unfold utilsDiatonicToSemitones mapperDiatonicToSemitones
    simp
  · rw [mapperDiatonicToSemitones_eval s r d m hz, hroot, findStartDegree_zero,
      utilsDiatonicToSemitones_eval d (getScaleIntervals s)
        (scaleIntervals_length_pos s) (scaleIntervals_getD_zero s),
      Int.toNat_zero, scaleIntervals_getD_zero s]
    ring_nf

/-- C1 (witness): the amended agreement instantiated at C Major, +2 scale
degrees, base note C4 (MIDI 60, the scale root). -/
theorem harmony_vs_mapper_diatonic_agree_on_root_witness :
    relativePC (cppRound ((60 : ℤ) : ℚ)) 0 = 0 ∧
    utilsDiatonicToSemitones 2 (getScaleIntervals Scale.Major) =
      mapperDiatonicToSemitones Scale.Major 0 2 ((60 : ℤ) : ℚ) := by
  have hroot : relativePC (cppRound ((60 : ℤ) : ℚ)) 0 = 0 := by
    rw [cppRound_intCast]
    decide
  exact ⟨hroot, harmony_vs_mapper_diatonic_agree_on_root Scale.Major 0 2 _ hroot⟩

/-! ## C7 — concrete diatonic intervals in C Major -/

/-- C7: with the scale C Major and root C, `PitchMapper::diatonicToSemitones`
maps +2 scale degrees from C4 (MIDI 60) to +4 semitones (E4, MIDI 64) and
+1 scale degree from E4 (MIDI 64) to +1 semitone (F4, MIDI 65). -/
theorem diatonic_c_major_concrete :
    mapperDiatonicToSemitones Scale.Major 0 2 ((60 : ℤ) : ℚ) = 4 ∧
    (60 : ℚ) + (mapperDiatonicToSemitones Scale.Major 0 2 ((60 : ℤ) : ℚ) : ℚ) = 64 ∧
    mapperDiatonicToSemitones Scale.Major 0 1 ((64 : ℤ) : ℚ) = 1 ∧
    (64 : ℚ) + (mapperDiatonicToSemitones Scale.Major 0 1 ((64 : ℤ) : ℚ) : ℚ) = 65 := by
  have h2 : mapperDiatonicToSemitones Scale.Major 0 2 ((60 : ℤ) : ℚ) = 4 := by
    rw [mapperDiatonicToSemitones_eval _ _ _ _ (by norm_num), cppRound_intCast]
    decide
  have h1 : mapperDiatonicToSemitones Scale.Major 0 1 ((64 : ℤ) : ℚ) = 1 := by
    rw [mapperDiatonicToSemitones_eval _ _ _ _ (by norm_num), cppRound_intCast]
    decide
  refine ⟨h2, ?_, h1, ?_⟩
  · rw [h2]
    norm_num
  · rw [h1]
    norm_num

/-! ## C4 — the YIN difference function's inner-sum length -/

theorem yinDiffSum_eq_sum (x : ℕ → ℚ) (tau : ℕ) :
    ∀ count : ℕ, yinDiffSum x tau count =
      ∑ j ∈ Finset.range count, (x j - x (j + tau)) ^ 2 := by
  intro count
  induction count with
  | zero => rfl
  | succ k ih =>
    rw [Finset.sum_range_succ, ← ih]
    rfl

/-- C4 (amended): for every frame `x` of size `W` and every positive lag,
the difference function the estimator computes is
`d(τ) = Σ_{j<W/2} (x[j] − x[j+τ])²` — the inner sum always runs over
`j` from 0 to `W/2 − 1`, a fixed length independent of `τ` (the input
indices read reach at most `W/2 − 1 + τ < W`, so the frame still covers
them), not over `j < W − τ`. -/
theorem differenceFunction_fixed_window (x : ℕ → ℚ) (numSamples tau : ℕ) :
    computeDifferenceFunction x numSamples (tau + 1) =
      ∑ j ∈ Finset.range (numSamples / 2), (x j - x (j + (tau + 1))) ^ 2 := by
  unfold computeDifferenceFunction
  rw [if_neg (Nat.succ_ne_zero tau)]
  exact yinDiffSum_eq_sum x (tau + 1) (numSamples / 2)

/-- The 4-sample frame `[0, 0, 0, 1]` separating the two sum lengths. -/
def c4Frame : ℕ → ℚ := fun j => if j = 3 then 1 else 0

/-- C4 (counterexample): on the frame `[0, 0, 0, 1]` with `W = 4` and
`τ = 1`, the code's difference function gives 0 (sum over `j < W/2 = 2`),
while the claimed formula `Σ_{j<W−τ} (x[j]−x[j+τ])²` gives 1 (its `j = 2`
term is `(x[2]−x[3])² = 1`), so the claimed equality fails. -/
theorem differenceFunction_counterexample :
    computeDifferenceFunction c4Frame 4 1 = 0 ∧
    specDifferenceFunction c4Frame 4 1 = 1 ∧
    computeDifferenceFunction c4Frame 4 1 ≠ specDifferenceFunction c4Frame 4 1 := by
  have h1 : computeDifferenceFunction c4Frame 4 1 = 0 := by
    norm_num [computeDifferenceFunction, yinDiffSum, c4Frame]
  have h2 : specDifferenceFunction c4Frame 4 1 = 1 := by
    norm_num [specDifferenceFunction, Finset.sum_range_succ, c4Frame]
  refine ⟨h1, h2, ?_⟩
  rw [h1, h2]
  norm_num

/-! ## C5 / C6 — scale quantization -/

/-- Everything the nearest-interval search guarantees for an out-of-scale
relative pitch class, checked case by case over the 12 pitch classes and
the four non-chromatic scales: the chosen interval is a member at minimum
circular distance, it is the first member attaining that minimum in
interval order, the wrapped adjustment has exactly that magnitude, landing
on the chosen interval's pitch class, and a tie between the two directly
adjacent scale members resolves to the lower one (adjustment -1). -/
theorem quantizeAdjust_spec (s : Scale) (rel : ℤ) (hs : s ≠ Scale.Chromatic)
    (h0 : 0 ≤ rel) (h1 : rel < 12) (hmem : rel ∉ getScaleIntervals s) :
    (nearestIntervalSearch rel (getScaleIntervals s)).1 ∈ getScaleIntervals s ∧
    (∀ i ∈ getScaleIntervals s,
      circularDist rel (nearestIntervalSearch rel (getScaleIntervals s)).1 ≤
        circularDist rel i) ∧
    (∀ i ∈ (getScaleIntervals s).takeWhile
        (fun j => decide (j ≠ (nearestIntervalSearch rel (getScaleIntervals s)).1)),
      circularDist rel (nearestIntervalSearch rel (getScaleIntervals s)).1 <
        circularDist rel i) ∧
    |wrapAdjustment ((nearestIntervalSearch rel (getScaleIntervals s)).1 - rel)| =
      circularDist rel (nearestIntervalSearch rel (getScaleIntervals s)).1 ∧
    (rel + wrapAdjustment ((nearestIntervalSearch rel (getScaleIntervals s)).1 - rel)) % 12 =
      (nearestIntervalSearch rel (getScaleIntervals s)).1 ∧
    ((rel - 1) ∈ getScaleIntervals s → (rel + 1) ∈ getScaleIntervals s →
      wrapAdjustment ((nearestIntervalSearch rel (getScaleIntervals s)).1 - rel) = -1) := by
  interval_cases rel <;> cases s <;>
    first
      | exact absurd rfl hs
      | (revert hmem; decide)

/-- C5 (counterexample): with C Major and root C, the rounded note 61 (C♯4)
has relative pitch class 1, which is out of scale and at equal minimum
circular distance 1 from the two interval members 0 (C) and 2 (D); the code
quantizes 61 down to 60, not up to 62 — the tie resolves toward the lower
interval encountered first in interval order, so "the result is adjusted
upward, not downward" fails. -/
theorem quantize_tie_counterexample :
    relativePC (cppRound ((61 : ℤ) : ℚ)) 0 = 1 ∧
    (1 : ℤ) ∉ getScaleIntervals Scale.Major ∧
    (0 : ℤ) ∈ getScaleIntervals Scale.Major ∧
    (2 : ℤ) ∈ getScaleIntervals Scale.Major ∧
    circularDist 1 0 = circularDist 1 2 ∧
    (∀ i ∈ getScaleIntervals Scale.Major, circularDist 1 0 ≤ circularDist 1 i) ∧
    quantizeToScale Scale.Major 0 ((61 : ℤ) : ℚ) = ((60 : ℤ) : ℚ) ∧
    ((60 : ℤ) : ℚ) < ((61 : ℤ) : ℚ) := by
  have hr : cppRound ((61 : ℤ) : ℚ) = 61 := cppRound_intCast 61
  have hadj : (61 + quantizeAdjust (getScaleIntervals Scale.Major)
      (relativePC 61 0) : ℤ) = 60 := by
    decide
  have hq : quantizeToScale Scale.Major 0 ((61 : ℤ) : ℚ) = ((60 : ℤ) : ℚ) := by
    unfold quantizeToScale
    rw [if_neg (by decide), hr]
    dsimp only
    rw [hadj]
  refine ⟨by rw [hr]; decide, by decide, by decide, by decide, by decide,
    by decide, hq, by norm_num⟩

/-- C5 (amended): for every non-chromatic scale, root, and fractional MIDI
note whose rounded pitch class is out of scale, `quantizeToScale` moves the
rounded note by the signed adjustment of smallest magnitude toward the
interval member at minimum circular distance, choosing among equally
distant members the one encountered first in interval order; since the
tables ascend, a tie between the two adjacent members resolves to the lower
one and the result is adjusted downward (by -1), not upward. -/
theorem quantize_nearest_spec (s : Scale) (r : ℤ) (m : ℚ)
    (hs : s ≠ Scale.Chromatic) (h0 : 0 ≤ r) (h1 : r < 12)
    (hmem : relativePC (cppRound m) r ∉ getScaleIntervals s) :
    ∃ best adj : ℤ,
      best = (nearestIntervalSearch (relativePC (cppRound m) r)
        (getScaleIntervals s)).1 ∧
      adj = wrapAdjustment (best - relativePC (cppRound m) r) ∧
      quantizeToScale s r m = ((cppRound m + adj : ℤ) : ℚ) ∧
      best ∈ getScaleIntervals s ∧
      (∀ i ∈ getScaleIntervals s,
        circularDist (relativePC (cppRound m) r) best ≤
          circularDist (relativePC (cppRound m) r) i) ∧
      (∀ i ∈ (getScaleIntervals s).takeWhile (fun j => decide (j ≠ best)),
        circularDist (relativePC (cppRound m) r) best <
          circularDist (relativePC (cppRound m) r) i) ∧
      |adj| = circularDist (relativePC (cppRound m) r) best ∧
      ((relativePC (cppRound m) r - 1) ∈ getScaleIntervals s →
        (relativePC (cppRound m) r + 1) ∈ getScaleIntervals s → adj = -1) := by
  obtain ⟨hb0, hb1⟩ := And.intro (relativePC_nonneg (cppRound m) r h0 h1)
    (relativePC_lt_twelve (cppRound m) r h0 h1)
  obtain ⟨s1, s2, s3, s4, s5, s6⟩ :=
    quantizeAdjust_spec s (relativePC (cppRound m) r) hs hb0 hb1 hmem
  refine ⟨_, _, rfl, rfl, ?_, s1, s2, s3, s4, s6⟩
  unfold quantizeToScale
  rw [if_neg hs]
  dsimp only
  unfold quantizeAdjust
  rw [if_neg hmem]

/-- C5 (witness): the amended quantization property instantiated at C Major,
root C, note 61 (C♯4). -/
theorem quantize_nearest_spec_witness :
    relativePC (cppRound ((61 : ℤ) : ℚ)) 0 ∉ getScaleIntervals Scale.Major ∧
    (∃ best adj : ℤ,
      best = (nearestIntervalSearch (relativePC (cppRound ((61 : ℤ) : ℚ)) 0)
        (getScaleIntervals Scale.Major)).1 ∧
      adj = wrapAdjustment (best - relativePC (cppRound ((61 : ℤ) : ℚ)) 0) ∧
      quantizeToScale Scale.Major 0 ((61 : ℤ) : ℚ) =
        ((cppRound ((61 : ℤ) : ℚ) + adj : ℤ) : ℚ) ∧
      best ∈ getScaleIntervals Scale.Major ∧
      (∀ i ∈ getScaleIntervals Scale.Major,
        circularDist (relativePC (cppRound ((61 : ℤ) : ℚ)) 0) best ≤
          circularDist (relativePC (cppRound ((61 : ℤ) : ℚ)) 0) i) ∧
      (∀ i ∈ (getScaleIntervals Scale.Major).takeWhile (fun j => decide (j ≠ best)),
        circularDist (relativePC (cppRound ((61 : ℤ) : ℚ)) 0) best <
          circularDist (relativePC (cppRound ((61 : ℤ) : ℚ)) 0) i) ∧
      |adj| = circularDist (relativePC (cppRound ((61 : ℤ) : ℚ)) 0) best ∧
      ((relativePC (cppRound ((61 : ℤ) : ℚ)) 0 - 1) ∈ getScaleIntervals Scale.Major →
        (relativePC (cppRound ((61 : ℤ) : ℚ)) 0 + 1) ∈ getScaleIntervals Scale.Major →
        adj = -1)) := by
  have hmem : relativePC (cppRound ((61 : ℤ) : ℚ)) 0 ∉ getScaleIntervals Scale.Major := by
    rw [cppRound_intCast]
    decide
  exact ⟨hmem, quantize_nearest_spec Scale.Major 0 ((61 : ℤ) : ℚ)
    (by decide) (by decide) (by decide) hmem⟩

theorem relativePC_add (n d r : ℤ) (h0 : 0 ≤ r) (h1 : r < 12) :
    relativePC (n + d) r = (relativePC n r + d) % 12 := by
  rw [relativePC_eq_emod _ _ h0 h1, relativePC_eq_emod _ _ h0 h1]
  omega

/-- C6: `quantizeToScale` is idempotent — applying it twice (same key, same
scale) gives the same result as applying it once, for every fractional MIDI
note; and a note whose rounded pitch class is already in the scale comes
back as just the rounded note. -/
theorem quantizeToScale_idempotent (s : Scale) (r : ℤ) (m : ℚ)
    (h0 : 0 ≤ r) (h1 : r < 12) :
    quantizeToScale s r (quantizeToScale s r m) = quantizeToScale s r m ∧
    (relativePC (cppRound m) r ∈ getScaleIntervals s →
      quantizeToScale s r m = ((cppRound m : ℤ) : ℚ)) := by
  by_cases hc : s = Scale.Chromatic
  · subst hc
    constructor
    · unfold quantizeToScale
      rw [if_pos rfl, if_pos rfl, cppRound_intCast]
    · intro _
      unfold quantizeToScale
      rw [if_pos rfl]
  · have hmem_case : ∀ k : ℤ, relativePC k r ∈ getScaleIntervals s →
        quantizeAdjust (getScaleIntervals s) (relativePC k r) = 0 := by
      intro k hk
      unfold quantizeAdjust
      rw [if_pos hk]
    constructor
    · have hq : quantizeToScale s r m =
          ((cppRound m + quantizeAdjust (getScaleIntervals s)
            (relativePC (cppRound m) r) : ℤ) : ℚ) := by
        unfold quantizeToScale
        rw [if_neg hc]
      rw [hq]
      have hr2 : cppRound ((cppRound m + quantizeAdjust (getScaleIntervals s)
          (relativePC (cppRound m) r) : ℤ) : ℚ) =
          cppRound m + quantizeAdjust (getScaleIntervals s)
            (relativePC (cppRound m) r) := cppRound_intCast _
      have hmem2 : relativePC (cppRound m + quantizeAdjust (getScaleIntervals s)
          (relativePC (cppRound m) r)) r ∈ getScaleIntervals s := by
        by_cases hm : relativePC (cppRound m) r ∈ getScaleIntervals s
        · rw [hmem_case _ hm, add_zero]
          exact hm
        · obtain ⟨s1, _, _, _, s5, _⟩ := quantizeAdjust_spec s
            (relativePC (cppRound m) r) hc
            (relativePC_nonneg (cppRound m) r h0 h1)
            (relativePC_lt_twelve (cppRound m) r h0 h1) hm
          have hadj : quantizeAdjust (getScaleIntervals s)
              (relativePC (cppRound m) r) =
              wrapAdjustment ((nearestIntervalSearch (relativePC (cppRound m) r)
                (getScaleIntervals s)).1 - relativePC (cppRound m) r) := by
            unfold quantizeAdjust
            rw [if_neg hm]
          rw [hadj, relativePC_add _ _ _ h0 h1, s5]
          exact s1
      unfold quantizeToScale
      rw [if_neg hc]
      dsimp only
      rw [hr2, hmem_case _ hmem2, add_zero]
    · intro hmem
      unfold quantizeToScale
      rw [if_neg hc]
      dsimp only
      rw [hmem_case _ hmem, add_zero]

/-- C6 (witness): idempotence instantiated at C Major, root C, on the
already-in-scale note 60 (C4). -/
theorem quantizeToScale_idempotent_witness :
    (0 : ℤ) ≤ 0 ∧ (0 : ℤ) < 12 ∧
    (quantizeToScale Scale.Major 0 (quantizeToScale Scale.Major 0 ((60 : ℤ) : ℚ)) =
        quantizeToScale Scale.Major 0 ((60 : ℤ) : ℚ) ∧
      (relativePC (cppRound ((60 : ℤ) : ℚ)) 0 ∈ getScaleIntervals Scale.Major →
        quantizeToScale Scale.Major 0 ((60 : ℤ) : ℚ) = ((cppRound ((60 : ℤ) : ℚ) : ℤ) : ℚ))) :=
  ⟨by decide, by decide,
    quantizeToScale_idempotent Scale.Major 0 ((60 : ℤ) : ℚ) (by decide) (by decide)⟩

/-! ## C3 — total silence reports unvoiced with confidence 0 -/

theorem yinDiffSum_zero_frame (tau : ℕ) :
    ∀ count : ℕ, yinDiffSum (fun _ => 0) tau count = 0 := by
  intro count
  induction count with
  | zero => rfl
  | succ k ih =>
    unfold yinDiffSum
    rw [ih]
    norm_num

theorem computeDifferenceFunction_zero_frame (frameSize tau : ℕ) :
    computeDifferenceFunction (fun _ => 0) frameSize tau = 0 := by
  unfold computeDifferenceFunction
  split
  · rfl
  · exact yinDiffSum_zero_frame tau (frameSize / 2)

theorem yinCumulativeSum_zero_frame (frameSize : ℕ) :
    ∀ tau : ℕ, yinCumulativeSum (computeDifferenceFunction (fun _ => 0) frameSize) tau = 0 := by
  intro tau
  induction tau with
  | zero => rfl
  | succ k ih =>
    unfold yinCumulativeSum
    rw [ih, computeDifferenceFunction_zero_frame]
    norm_num

theorem yinCMND_zero_frame (frameSize : ℕ) (tau : ℕ) :
    yinCMND (computeDifferenceFunction (fun _ => 0) frameSize) tau = 1 := by
  unfold yinCMND
  rcases Nat.eq_zero_or_pos tau with h | h
  · rw [if_pos h]
  · rw [if_neg (by omega), yinCumulativeSum_zero_frame, if_neg (by norm_num)]

theorem searchDip_none (buf : ℕ → ℚ) (h : ∀ t, ¬ buf t < yinThreshold) :
    ∀ maxTau tau : ℕ, searchDip buf maxTau tau = none := by
  have main : ∀ (k maxTau tau : ℕ), maxTau - tau ≤ k →
      searchDip buf maxTau tau = none := by
    intro k
    induction k with
    | zero =>
      intro maxTau tau hk
      rw [searchDip, dif_neg (by omega)]
    | succ k ih =>
      intro maxTau tau hk
      rw [searchDip]
      by_cases hlt : tau < maxTau
      · rw [dif_pos hlt, if_neg (h tau)]
        exact ih maxTau (tau + 1) (by omega)
      · rw [dif_neg hlt]
  intro maxTau tau
  exact main (maxTau - tau) maxTau tau le_rfl

theorem minScan_const_one (buf : ℕ → ℚ) (h : ∀ t, buf t = 1) :
    ∀ (k hi t idx : ℕ), hi - t ≤ k → (minScan buf hi t 1 idx).1 = 1 := by
  intro k
  induction k with
  | zero =>
    intro hi t idx hk
    rw [minScan, dif_neg (by omega)]
  | succ k ih =>
    intro hi t idx hk
    rw [minScan]
    by_cases hlt : t < hi
    · rw [dif_pos hlt, if_neg (by rw [h t]; norm_num)]
      exact ih hi (t + 1) idx (by omega)
    · rw [dif_neg hlt]

theorem absoluteThreshold_const_one (buf : ℕ → ℚ) (h : ∀ t, buf t = 1)
    (yinSize minTau0 maxTau0 : ℕ) :
    absoluteThreshold buf yinSize minTau0 maxTau0 = 0 := by
  unfold absoluteThreshold
  dsimp only
  rw [searchDip_none buf
    (fun t => by rw [h t]; norm_num [yinThreshold])]
  dsimp only
  rw [h (max 2 minTau0),
    minScan_const_one buf h (min maxTau0 (yinSize - 1) - (max 2 minTau0 + 1)) _ _ _ le_rfl,
    if_neg (by norm_num)]

/-- C3: an analysis frame of total silence (every sample 0) makes the YIN
pass report unvoiced with confidence 0 (frequency and period also 0), for
every frame size, sample rate, voice-type frequency range, and period
search bounds — the normalized buffer stays at its neutral value 1
everywhere, the threshold scan and the global-minimum fallback both fail,
and `absoluteThreshold` returns 0 (the unvoiced marker). -/
theorem silence_reports_unvoiced (frameSize minTau0 maxTau0 : ℕ)
    (sampleRate minFreqHz maxFreqHz prevConfidence : ℚ) :
    runYinAnalysis (fun _ => 0) frameSize sampleRate minFreqHz maxFreqHz
      minTau0 maxTau0 prevConfidence =
      { voiced := false, confidence := 0, frequencyHz := 0, periodSamples := 0 } := by
  unfold runYinAnalysis
  dsimp only
  rw [absoluteThreshold_const_one _ (yinCMND_zero_frame frameSize) _ minTau0 maxTau0,
    if_neg (by norm_num)]

/-! ## C8 — unvoiced input forces ratio 1 -/

/-- C8: when the detector reports unvoiced, the lead corrector's computed
target pitch ratio is exactly 1 and every harmony voice's computed pitch
ratio is exactly 1, whatever the frequencies, harmony mode, intervals,
scale and humanize offsets are — the unvoiced case is identity behavior. -/
theorem unvoiced_gives_identity_ratio :
    (∀ leadTargetHz detectedHz : ℚ,
      calculateTargetPitchRatio false leadTargetHz detectedHz = 1) ∧
    (∀ (leadMidi : ℝ) (mode : HarmonyMode) (dia semi : ℤ) (s : Scale)
      (humanizeOffset detectedMidi : ℝ),
      calculateHarmonyPitchRatio false leadMidi mode dia semi s
        humanizeOffset detectedMidi = 1) := by
  constructor
  · intro leadTargetHz detectedHz
    unfold calculateTargetPitchRatio
    simp
  · intro leadMidi mode dia semi s humanizeOffset detectedMidi
    unfold calculateHarmonyPitchRatio
    simp

/-! ## C10 — the soft-clip stage bounds every output sample -/

theorem abs_tanh_le_one (x : ℝ) : |Real.tanh x| ≤ 1 := by
  rw [Real.tanh_eq_sinh_div_cosh, abs_div, abs_of_pos (Real.cosh_pos x),
    div_le_one (Real.cosh_pos x)]
  nlinarith [Real.cosh_sq x, sq_abs (Real.sinh x), abs_nonneg (Real.sinh x),
    Real.cosh_pos x]

theorem softClipSample_abs_le (s : ℝ) : |softClipSample s| ≤ 10 / 9 := by
  unfold softClipSample
  rw [abs_div, abs_of_pos (show (0:ℝ) < 9/10 by norm_num)]
  have h := abs_tanh_le_one (s * (9/10))
  rw [show (10:ℝ)/9 = 1 / (9/10) by norm_num]
  exact div_le_div_of_nonneg_right h (by norm_num) |>.trans_eq rfl

/-- C10: after the soft-clip stage of `TunerEngine::process` — the last
transformation applied to the output block — every sample of every channel
is bounded in magnitude by 1/0.9 = 10/9 ≈ 1.1112, for every mixed input
block (out-of-range indices read the default 0, also within the bound). -/
theorem softclip_output_bounded (data : List ℝ) (i : ℕ) :
    |(softClipChannel data).getD i 0| ≤ 10 / 9 := by
  unfold softClipChannel
  rw [List.getD_eq_getElem?_getD, List.getElem?_map]
  rcases h : data[i]? with _ | b
  · simp
    norm_num
  · simp only [Option.map_some', Option.getD_some]
    exact softClipSample_abs_le b
